import Mathlib

/-!
Verification of the method-customization engine of `i3py`
(`src/i3py/core/composition.py`) against its natural-language specification.

The Python code is shallowly embedded: every definition below mirrors one
function or method of `composition.py` (line numbers refer to that file).
Python exceptions are modelled with `Except`: since in the embedded methods a
`raise` always happens before any mutation, an `error` result means the object
is left in its pre-call state.
-/

namespace I3py

/-- Error taxonomy of the engine, following the names used by the spec.
In the source all of these are concrete Python exceptions:
`duplicateIdentifier` is the `ValueError` raised by
`MethodComposer._check_duplicates`, `anchorNotFound` is the `ValueError` raised
by `list.index` on a missing element, `keyError` is the `KeyError` raised by
`del` on a missing mapping key, `indexError` is the `IndexError` of an
out-of-range list subscript, `attributeError` is the `AttributeError` of
reading `_names` on a plain method, and `missingFunction` is the
`RuntimeError` raised by `customize.customize`. -/
inductive CompErr where
  | duplicateIdentifier
  | anchorNotFound
  | keyError
  | indexError
  | attributeError
  | missingFunction
deriving DecidableEq

/-- Python `list.index(a)` (first index of `a`, `ValueError` when absent). -/
def pyIndex (l : List String) (a : String) : Except CompErr Nat :=
  if a ∈ l then .ok (l.indexOf a) else .error .anchorNotFound

/-- Python list subscript `l[i]` (`IndexError` when out of range; the engine
never subscripts with a negative index). -/
def pyGet {F : Type} (l : List F) (i : Nat) : Except CompErr F :=
  match l[i]? with
  | some v => .ok v
  | Option.none => .error .indexError

/-- State of a `MethodComposer` (composition.py lines 130-313): the parallel
lists `_names` and `_methods`.  The type `F` stands for the Python callables
held in `_methods`; the engine never inspects them, it only stores and
reorders them. -/
structure MethodComposer (F : Type) where
  names : List String
  methods : List F
deriving DecidableEq

namespace MethodComposer

variable {F : Type}

/-- Construction (lines 164-172): `_methods = [func]`, `_names = [func_id]`. -/
def init (func : F) (funcId : String) : MethodComposer F :=
  ⟨[funcId], [func]⟩

/-- Lines 306-313: raise when the id is already present. -/
def checkDuplicates (c : MethodComposer F) (name : String) : Except CompErr Unit :=
  if name ∈ c.names then .error .duplicateIdentifier else .ok ()

/-- Lines 184-199. -/
def prepend (c : MethodComposer F) (name : String) (method : F) :
    Except CompErr (MethodComposer F) := do
  c.checkDuplicates name
  .ok ⟨name :: c.names, method :: c.methods⟩

/-- Lines 201-216. -/
def append (c : MethodComposer F) (name : String) (method : F) :
    Except CompErr (MethodComposer F) := do
  c.checkDuplicates name
  .ok ⟨c.names ++ [name], c.methods ++ [method]⟩

/-- Lines 218-236: duplicate check first, then `index(anchor)`, then insert at
`i+1` in both lists. -/
def add_after (c : MethodComposer F) (anchor name : String) (method : F) :
    Except CompErr (MethodComposer F) := do
  c.checkDuplicates name
  let i ← pyIndex c.names anchor
  .ok ⟨c.names.insertIdx (i+1) name, c.methods.insertIdx (i+1) method⟩

/-- Lines 238-256. -/
def add_before (c : MethodComposer F) (anchor name : String) (method : F) :
    Except CompErr (MethodComposer F) := do
  c.checkDuplicates name
  let i ← pyIndex c.names anchor
  .ok ⟨c.names.insertIdx i name, c.methods.insertIdx i method⟩

/-- Lines 258-274: `_methods[i] = method`, names unchanged. -/
def replace (c : MethodComposer F) (name : String) (method : F) :
    Except CompErr (MethodComposer F) := do
  let i ← pyIndex c.names name
  .ok ⟨c.names, c.methods.set i method⟩

/-- Lines 276-287: delete position `i` from both lists. -/
def remove (c : MethodComposer F) (name : String) :
    Except CompErr (MethodComposer F) := do
  let i ← pyIndex c.names name
  .ok ⟨c.names.eraseIdx i, c.methods.eraseIdx i⟩

/-- Lines 289-294. -/
def reset (_c : MethodComposer F) : MethodComposer F :=
  ⟨[], []⟩

/-- Lines 174-182: `clone` builds a fresh composer and overwrites its two
lists with copies of the current ones, so its net state is an exact copy. -/
def clone (c : MethodComposer F) : MethodComposer F :=
  ⟨c.names, c.methods⟩

/-- Lines 296-297: `self._methods[self._names.index(key)]`. -/
def getitem (c : MethodComposer F) (key : String) : Except CompErr F := do
  let i ← pyIndex c.names key
  pyGet c.methods i

/-- Lines 299-300. -/
def containsId (c : MethodComposer F) (item : String) : Bool :=
  c.names.contains item

end MethodComposer

/-- Nonempty `specifiers` tuples accepted by `modify_behavior`
(composition.py lines 469-473): the composer method to invoke plus its anchor
argument when it has one. -/
inductive CompOp where
  | prepend
  | append
  | add_after (anchor : String)
  | add_before (anchor : String)
  | replace (anchor : String)
  | remove (anchor : String)
deriving DecidableEq

/-- The `specifiers` argument: `Option.none` is the empty tuple `()`
(whole-operation replacement), `some op` a nonempty tuple. -/
abbrev Specifiers := Option CompOp

/-- Dispatch of lines 534-544: pick the composer method named by
`specifiers[0]` and call it with the documented arguments. -/
def applyOp {F : Type} (c : MethodComposer F) (op : CompOp) (modifId : String)
    (func : F) : Except CompErr (MethodComposer F) :=
  match op with
  | .prepend => c.prepend modifId func
  | .append => c.append modifId func
  | .add_after a => c.add_after a modifId func
  | .add_before a => c.add_before a modifId func
  | .replace a => c.replace a func
  | .remove a => c.remove a

/-- One method entry of the `_customs` ledger (lines 393-394, 495-503): either
no entry yet, a plain replacement function, or an `OrderedDict` of
`modification id := (function, specifiers)` records. -/
inductive Customs (F : Type) where
  | absent
  | plain (f : F)
  | table (entries : List (String × F × CompOp))
deriving DecidableEq

/-- Assignment `d[k] = v` on an `OrderedDict`: an existing key keeps its
position, a new key is appended at the end. -/
def updateOrAppend {F : Type} (entries : List (String × F × CompOp))
    (key : String) (v : F × CompOp) : List (String × F × CompOp) :=
  match entries with
  | [] => [(key, v)]
  | e :: rest =>
      if e.1 = key then (key, v) :: rest else e :: updateOrAppend rest key v

/-- Lookup `d[k]` on an `OrderedDict`, as an `Option`. -/
def tableFind {F : Type} (entries : List (String × F × CompOp)) (key : String) :
    Option (F × CompOp) :=
  match entries with
  | [] => Option.none
  | e :: rest => if e.1 = key then some e.2 else tableFind rest key

/-- Statement `del d[k]` on an `OrderedDict`: `KeyError` when absent. -/
def tableDelete {F : Type} (entries : List (String × F × CompOp)) (key : String) :
    Except CompErr (List (String × F × CompOp)) :=
  match entries with
  | [] => .error .keyError
  | e :: rest =>
      if e.1 = key then .ok rest
      else do
        let rest2 ← tableDelete rest key
        .ok (e :: rest2)

/-- The value currently bound to the customized method name on the owning
object: a plain callable before any composition, a `MethodComposer` after. -/
inductive Slot (F : Type) where
  | plain (f : F)
  | composer (c : MethodComposer F)
deriving DecidableEq

/-- State of one customizable operation of a `SupportMethodCustomization`
object (lines 382-397): the bound method (`slot`), the `_customs` ledger entry
for that method name, and the `_old_ids` entry for it.  `modify_behavior` and
`copy_custom_behaviors` handle distinct method names fully independently, so
the state is modelled per operation. -/
structure SupportMethodCustomization (F : Type) where
  slot : Slot F
  customs : Customs F
  oldIds : Option String
deriving DecidableEq

/-- Ledger bookkeeping of lines 546-567, run after the composer update
succeeded (`c2` is the updated composer, needed by line 559). -/
def updateCustoms {F : Type} (entries : List (String × F × CompOp))
    (c2 : MethodComposer F) (op : CompOp) (modifId : String) (func : F) :
    Except CompErr (List (String × F × CompOp)) :=
  match op with
  | .remove _ => tableDelete entries modifId
  | .replace replaced =>
      match tableFind entries replaced with
      | some (_, dir) => .ok (updateOrAppend entries replaced (func, dir))
      | Option.none => do
          let ind ← pyIndex c2.names replaced
          if ind = 0 then
            .ok (updateOrAppend entries replaced (func, .prepend))
          else
            .ok (updateOrAppend entries replaced
                  (func, .add_after (c2.names.getD (ind-1) "")))
  | _ => .ok (updateOrAppend entries modifId (func, op))

/-- Ledger-shape normalization of lines 498-503, run for a nonempty
`specifiers` tuple when not `internal`: create the `OrderedDict` on first use
and demote a prior plain replacement into it under id `"old"` with a
`prepend` directive. -/
def ledgerSetup {F : Type} : Customs F → List (String × F × CompOp)
  | .absent => []
  | .plain old => [("old", old, CompOp.prepend)]
  | .table es => es

/-- Promotion of lines 524-532: reuse the current composer, or wrap the plain
callable into a fresh one whose single id comes from `_old_ids` (default
`"old"`). -/
def ensureComposer {F : Type} (st : SupportMethodCustomization F) :
    MethodComposer F :=
  match st.slot with
  | .composer c => c
  | .plain f => MethodComposer.init f (st.oldIds.getD "old")

/-- The `modify_behavior` method (lines 445-567) for one operation.

Points of the translation:
* line 488 rewrites `modif_id` to `"old"` when `specifiers` is empty, hence
  the `replaceAll` branch stores `"old"` into `_old_ids` (line 520);
* lines 495-503 set up the ledger shape before anything can fail;
* the abstract `analyse_function` hook (lines 509-512) is declared abstract
  in composition.py and implemented by collaborators outside the engine; it is
  modelled as the identity on `specifiers` (no simplification), and the
  signature/chain data it returns does not influence step identifiers or
  order, so it is not carried in the state;
* lines 546-567 update the ledger (skipped when `internal`). -/
def modify_behavior {F : Type} (st : SupportMethodCustomization F) (func : F)
    (specifiers : Specifiers) (modifId : String) (internal : Bool) :
    Except CompErr (SupportMethodCustomization F) :=
  match specifiers with
  | Option.none =>
      .ok { slot := .plain func,
            customs := if internal then st.customs else .plain func,
            oldIds := some "old" }
  | some op => do
      let c2 ← applyOp (ensureComposer st) op modifId func
      if internal then
        .ok { st with slot := .composer c2 }
      else do
        let es2 ← updateCustoms (ledgerSetup st.customs) c2 op modifId func
        .ok { slot := .composer c2, customs := .table es2, oldIds := st.oldIds }

/-- Anchor of a directive as tested on line 596: only `add_after` and
`add_before` take the anchored replay path (`replace`/`remove` directives are
never recorded in the ledger and replay would apply them verbatim). -/
def replayAnchor : CompOp → Option String
  | .add_after a => some a
  | .add_before a => some a
  | _ => Option.none

/-- Rewrite the anchor of an anchored directive (line 627). -/
def withAnchor (op : CompOp) (a : String) : CompOp :=
  match op with
  | .add_after _ => .add_after a
  | .add_before _ => .add_before a
  | o => o

/-- The `while` loop of lines 622-630 with the `shift` value of line 620.
Line 620 reads `shift = -1 if specifiers[0] == add_after else -1` (the
string literal quotes are dropped here), so
`shift` is `-1` in both branches and the loop only ever moves backward; the
loop condition `index > 0 and index < len(names)-1` is re-evaluated before
each decrement, and the body reads `names[index]` after decrementing. -/
def whileScan (names our : List String) : Nat → Option String
  | 0 => Option.none
  | i+1 =>
      if i+1 < names.length - 1 then
        if names.getD i "" ∈ our then some (names.getD i "")
        else whileScan names our i
      else Option.none

/-- Body of the inner replay loop (lines 591-634): `self` is the target being
rebuilt, `obj` the source whose ledger is replayed, `(custom, func, op)` one
ledger record.  Because `shift` never becomes `1` (line 620), the fallback of
lines 632-634 always chooses `prepend`. -/
def replayModifier {F : Type} (self obj : SupportMethodCustomization F)
    (custom : String) (func : F) (op : CompOp) :
    Except CompErr (SupportMethodCustomization F) :=
  match replayAnchor op with
  | Option.none => modify_behavior self func (some op) custom false
  | some anchor =>
      match self.slot with
      | .plain _ =>
          let aux : CompOp :=
            match op with
            | .add_after _ => .append
            | _ => .prepend
          modify_behavior self func (some aux) custom false
      | .composer mc =>
          if anchor ∈ mc.names then
            modify_behavior self func (some op) custom false
          else do
            let names ← match obj.slot with
              | .composer oc => Except.ok oc.names
              | .plain _ => Except.error CompErr.attributeError
            let index ← pyIndex names custom
            match whileScan names mc.names index with
            | some name =>
                modify_behavior self func (some (withAnchor op name)) custom false
            | Option.none =>
                modify_behavior self func (some CompOp.prepend) custom false

/-- The `copy_custom_behaviors` method (lines 569-634) for one operation:
replay the ledger of `obj` onto `self`.  A plain ledger entry is replayed as a
whole-operation replacement with the default arguments of line 587; a table is
replayed record by record in insertion order. -/
def copy_custom_behaviors {F : Type} (self obj : SupportMethodCustomization F) :
    Except CompErr (SupportMethodCustomization F) :=
  match obj.customs with
  | .absent => .ok self
  | .plain f => modify_behavior self f Option.none "custom" false
  | .table entries =>
      entries.foldlM (fun s e => replayModifier s obj e.1 e.2.1 e.2.2) self

/-- Parameter kinds of the Python `funcsigs` signature objects. -/
inductive ParamKind where
  | positionalOnly
  | positionalOrKeyword
  | varPositional
  | varKeyword
  | keywordOnly
deriving DecidableEq

/-- One formal parameter of a function signature. -/
structure Param where
  name : String
  kind : ParamKind
deriving DecidableEq

/-- Python truthiness of the `alias` argument: `None` and the empty string
are falsy. -/
def aliasTruthy : Option String → Bool
  | Option.none => false
  | some s => !s.isEmpty

/-- The inner `norm_arg` of `normalize_signature` (lines 44-52): the alias
test comes first, so a parameter named `self` is replaced by the alias even
when it is variadic. -/
def norm_arg (al : Option String) (p : Param) : String :=
  if aliasTruthy al = true ∧ p.name = "self" then al.getD ""
  else match p.kind with
    | .varPositional => "*" ++ p.name
    | .varKeyword => "**" ++ p.name
    | _ => p.name

/-- The `normalize_signature` function (lines 26-54): one token per formal
parameter, in order. -/
def normalize_signature (params : List Param) (al : Option String) :
    List String :=
  params.map (norm_arg al)

/-- State of the `customize` declarative directive object (lines 316-355):
its recorded specifiers and the function attached by decoration, `Option.none`
when the decorator was never called with a function. -/
structure Customizer (F : Type) where
  specifiers : Specifiers
  func : Option F
deriving DecidableEq

/-- True exactly when `specifiers[0]` is the `remove` keyword. -/
def specIsRemove : Specifiers → Bool
  | some (.remove _) => true
  | _ => false

/-- The guard of `customize.customize` (lines 370-373), written in the source
as `if not self.func and (not spec or spec[0] == remove): raise` with
`remove` a string literal.  When the
guard passes, the call goes on to `modify_behavior`. -/
def customizeGuard {F : Type} (c : Customizer F) : Except CompErr Unit :=
  if c.func.isNone && (c.specifiers.isNone || specIsRemove c.specifiers) then
    .error .missingFunction
  else .ok ()

/-- Key of the `MetaMethodComposer.sigs` cache (line 98): the ordered tuple of
normalized signatures paired with the chain parameter. -/
abbrev ComposerKey := List (List String) × Option String

/-- A dynamically created composer subclass (the Shape).  `serial` models
Python object identity: `create_composer` is called at most once per key, and
each call produces a class distinct from every previously created one, which
the serial number makes observable in the embedding. -/
structure ComposerClass where
  key : ComposerKey
  serial : Nat
deriving DecidableEq

/-- The `create_composer` classmethod (lines 109-127): synthesize the
subclass for a signature set and chain parameter. -/
def create_composer (k : ComposerKey) (serial : Nat) : ComposerClass :=
  ⟨k, serial⟩

/-- The `MetaMethodComposer.sigs` class attribute (line 61) plus a counter of
how many classes have been created so far (modelling object identity). -/
structure SigCache where
  entries : List (ComposerKey × ComposerClass)
  counter : Nat
deriving DecidableEq

/-- Lookup in the cache dictionary. -/
def cacheLookup (entries : List (ComposerKey × ComposerClass)) (k : ComposerKey) :
    Option ComposerClass :=
  match entries with
  | [] => Option.none
  | e :: rest => if e.1 = k then some e.2 else cacheLookup rest k

/-- The cache logic of `MetaMethodComposer.__call__` (lines 98-103): when the
key is absent, create the subclass and store it; then return the stored
subclass for the key. -/
def metaCall (cache : SigCache) (k : ComposerKey) : SigCache × ComposerClass :=
  match cacheLookup cache.entries k with
  | some cls => (cache, cls)
  | Option.none =>
      let cls := create_composer k cache.counter
      (⟨cache.entries ++ [(k, cls)], cache.counter + 1⟩, cls)

/-- Fold a sequence of cache requests, keeping the cache state. -/
def metaCalls (cache : SigCache) (ks : List ComposerKey) : SigCache :=
  ks.foldl (fun c k => (metaCall c k).1) cache

/-- The generated `__call__` body (lines 117-124) when `chain_on` is set, for
example `val = m(self.__self__, val)` in a loop followed by `return val`: each
step receives the current object state and accumulator and yields both
updated; the loop threads them and the final accumulator is returned.  `σ` is
the mutable state of the owning object, `β` the accumulator type. -/
def runChained {σ β : Type} : List (σ → β → σ × β) → σ → β → σ × β
  | [], s, v => (s, v)
  | m :: ms, s, v =>
      let r := m s v
      runChained ms r.1 r.2

/-- The generated `__call__` body when `chain_on` is empty: every step runs in
order on the evolving object state, its return value is discarded. -/
def runUnchained {σ β : Type} : List (σ → σ × β) → σ → σ
  | [], s => s
  | m :: ms, s => runUnchained ms (m s).1

/-- Full result of an unchained call: the final object state together with the
returned value, which is the bare `return` of line 122, that is Python
`None`, regardless of what the steps returned. -/
def callUnchained {σ β γ : Type} (ms : List (σ → σ × β)) (s : σ) :
    σ × Option γ :=
  (runUnchained ms s, Option.none)

/-- Directive kinds that insert a new step (the only kinds `modify_behavior`
ever records in a ledger table). -/
def isInsertion : CompOp → Bool
  | .prepend => true
  | .append => true
  | .add_after _ => true
  | .add_before _ => true
  | _ => false

/-- A ledger record id is resolvable in the source object: the source holds a
composer whose name list contains the id (line 621 looks the id up there). -/
def anchorIdOk {F : Type} (obj : SupportMethodCustomization F) (id : String) :
    Bool :=
  match obj.slot with
  | .composer oc => oc.names.contains id
  | .plain _ => false

/-- The ledger records of an object, empty for a plain or absent entry. -/
def ledgerRecords {F : Type} : Customs F → List (String × F × CompOp)
  | .table es => es
  | _ => []

/-- Well-formed source object for replay: every ledger record holds an
insertion directive (the only kind `modify_behavior` stores in a table) and
every anchored record is registered under an id that is present in the source
pipeline, which is what `modify_behavior` establishes when it inserts the
step under that very id. -/
def WFLedger {F : Type} (obj : SupportMethodCustomization F) : Prop :=
  ∀ e ∈ ledgerRecords obj.customs,
    isInsertion e.2.2 = true ∧
    (replayAnchor e.2.2 ≠ Option.none → anchorIdOk obj e.1 = true)

instance decWFLedger {F : Type} (obj : SupportMethodCustomization F) :
    Decidable (WFLedger obj) := by
  unfold WFLedger
  infer_instance

/-- Apply a sequence of customization directives through `modify_behavior`
(each element is modification id, function, nonempty specifiers). -/
def applyDirectives {F : Type} (st : SupportMethodCustomization F)
    (ds : List (String × F × CompOp)) :
    Except CompErr (SupportMethodCustomization F) :=
  ds.foldlM (fun s d => modify_behavior s d.2.1 (some d.2.2) d.1 false) st

/-- Ledger contents viewed as a record list: `Option.none` for a plain
replacement entry, `some []` when no entry exists yet. -/
def ledgerView {F : Type} : Customs F → Option (List (String × F × CompOp))
  | .absent => some []
  | .plain _ => Option.none
  | .table es => some es

/-- Step identifiers of the pipeline bound to the operation, in execution
order (empty for a plain callable). -/
def pipeNames {F : Type} (st : SupportMethodCustomization F) : List String :=
  match st.slot with
  | .composer c => c.names
  | .plain _ => []

/-- Invariant of claim C10: the two parallel lists of a composer have equal
length and the identifiers are pairwise distinct. -/
def Inv {F : Type} (c : MethodComposer F) : Prop :=
  c.names.length = c.methods.length ∧ c.names.Nodup

/-- Keys of a ledger table are pairwise distinct (always true of a Python
`OrderedDict`). -/
def keysNodup {F : Type} (E : List (String × F × CompOp)) : Prop :=
  (E.map Prod.fst).Nodup

instance decKeysNodup {F : Type} (E : List (String × F × CompOp)) :
    Decidable (keysNodup E) := by
  unfold keysNodup
  infer_instance

/-- C4: inserting a step under an identifier already present fails with
`DuplicateIdentifier` for all four insertion operations, whatever the anchor.
The duplicate check of lines 306-313 runs before anything is mutated, so the
error result leaves the composer exactly as it was (atomicity is inherent:
no successor state is produced). -/
theorem C4_duplicate_insert {F : Type} (c : MethodComposer F)
    (name anchor : String) (m : F) (h : name ∈ c.names) :
    c.prepend name m = .error .duplicateIdentifier ∧
    c.append name m = .error .duplicateIdentifier ∧
    c.add_before anchor name m = .error .duplicateIdentifier ∧
    c.add_after anchor name m = .error .duplicateIdentifier := by
  refine ⟨?_, ?_, ?_, ?_⟩ <;>
  · simp only [MethodComposer.prepend, MethodComposer.append,
      MethodComposer.add_before, MethodComposer.add_after,
      MethodComposer.checkDuplicates, if_pos h]
    rfl

/-- Witness for C4 at a concrete composer. -/
theorem C4_duplicate_insert_witness :
    ("old" ∈ (⟨["old"], [0]⟩ : MethodComposer Nat).names) ∧
    ((⟨["old"], [0]⟩ : MethodComposer Nat).prepend "old" 5 =
        .error .duplicateIdentifier ∧
      (⟨["old"], [0]⟩ : MethodComposer Nat).append "old" 5 =
        .error .duplicateIdentifier ∧
      (⟨["old"], [0]⟩ : MethodComposer Nat).add_before "x" "old" 5 =
        .error .duplicateIdentifier ∧
      (⟨["old"], [0]⟩ : MethodComposer Nat).add_after "x" "old" 5 =
        .error .duplicateIdentifier) :=
  ⟨by decide, C4_duplicate_insert ⟨["old"], [0]⟩ "old" "x" 5 (by decide)⟩

/-- Auxiliary for C5: an unchained invocation runs the steps sequentially, so
the state after a concatenated list is the sequential composition. -/
theorem runUnchained_append {σ β : Type} (ms ns : List (σ → σ × β)) (s : σ) :
    runUnchained (ms ++ ns) s = runUnchained ns (runUnchained ms s) := by
  induction ms generalizing s with
  | nil => rfl
  | cons m t ih => simp [runUnchained, ih]

/-- C5: with a chain parameter the generated dispatcher threads the
accumulator (three steps adding 1 to the accumulator yield 3 from 0); without
one it runs the steps in order for effect and returns Python `None` no matter
what the steps return. -/
theorem C5_invoke_semantics {σ β γ : Type} (ms ns : List (σ → σ × β)) (s : σ) :
    (runChained
        [fun (u : Unit) (v : Nat) => (u, v + 1),
         fun u v => (u, v + 1),
         fun u v => (u, v + 1)] () 0).2 = 3 ∧
    (callUnchained ms s : σ × Option γ).2 = Option.none ∧
    (callUnchained (ms ++ ns) s : σ × Option γ).1 =
      runUnchained ns (runUnchained ms s) := by
  exact ⟨rfl, rfl, runUnchained_append ms ns s⟩

/-- C7: evaluation of the `customize.customize` guard (line 371,
`if not self.func and (not spec or spec[0] == remove): raise`, with
`remove` a string literal).  With no
decorated function the code raises precisely for a `remove` directive and for
a whole-operation replacement, and lets every other directive kind through;
the claim (and the evident intent, since `modify_behavior` lines 509-514
never touch the function for `remove`) is the opposite for `remove` and for
the insertion kinds. -/
theorem C7_code_eval :
    customizeGuard (⟨some (.remove "custom1"), Option.none⟩ : Customizer Nat) =
      .error .missingFunction ∧
    customizeGuard (⟨some .append, Option.none⟩ : Customizer Nat) = .ok () ∧
    customizeGuard (⟨some (.add_after "old"), Option.none⟩ : Customizer Nat) =
      .ok () ∧
    customizeGuard (⟨Option.none, Option.none⟩ : Customizer Nat) =
      .error .missingFunction :=
  ⟨rfl, rfl, rfl, rfl⟩

/-- C8 counterexample: the code substitutes the alias by parameter NAME
(`arg.name == self`, a string comparison on line 45), not by position.  A
first parameter named
`this` is kept verbatim even though an alias is provided, against the claim
that the first parameter is replaced by the alias. -/
theorem C8_counterexample :
    normalize_signature [⟨"this", .positionalOrKeyword⟩] (some "feat") =
      ["this"] ∧
    normalize_signature [⟨"this", .positionalOrKeyword⟩] (some "feat") ≠
      ["feat"] := by
  refine ⟨rfl, ?_⟩
  decide

/-- C8 (amended): normalization yields one token per parameter; a parameter
is replaced by the alias exactly when the alias is provided non-empty and the
parameter is literally named `self` (wherever it occurs, and taking
precedence over the variadic markers); otherwise variadic-positional
parameters get a single leading `*`, variadic-keyword parameters a leading
`**`, and all others their bare name. -/
theorem C8_normalize_tokens (params : List Param) (al : Option String)
    (k : Nat) (p : Param) (hk : params[k]? = some p) :
    (normalize_signature params al).length = params.length ∧
    (normalize_signature params al)[k]? =
      some (if (al ≠ Option.none ∧ al ≠ some "") ∧ p.name = "self"
            then al.getD ""
            else match p.kind with
              | .varPositional => "*" ++ p.name
              | .varKeyword => "**" ++ p.name
              | _ => p.name) := by
  constructor
  · simp [normalize_signature]
  · rw [normalize_signature, List.getElem?_map, hk, Option.map_some']
    congr 1
    rw [norm_arg]
    rcases al with _ | s
    · simp [aliasTruthy]
    · by_cases hs : s = ""
      · subst hs
        simp [aliasTruthy, show "".isEmpty = true from rfl]
      · by_cases hname : p.name = "self"
        · simp [aliasTruthy, String.isEmpty_iff, hs, hname]
        · simp [aliasTruthy, hname]

/-- Witness for C8 (amended) at concrete inputs: a variadic parameter named
`self` is replaced by the alias, not starred. -/
theorem C8_normalize_tokens_witness :
    ([⟨"self", ParamKind.varPositional⟩] : List Param)[0]? =
      some ⟨"self", ParamKind.varPositional⟩ ∧
    ((normalize_signature [⟨"self", .varPositional⟩] (some "feat")).length =
        ([⟨"self", ParamKind.varPositional⟩] : List Param).length ∧
      (normalize_signature [⟨"self", .varPositional⟩] (some "feat"))[0]? =
        some (if (some "feat" ≠ (Option.none : Option String) ∧
                  some "feat" ≠ some "") ∧ "self" = "self"
              then (some "feat").getD ""
              else "*" ++ "self")) :=
  ⟨rfl, C8_normalize_tokens [⟨"self", .varPositional⟩] (some "feat") 0
    ⟨"self", .varPositional⟩ rfl⟩

/-- C1: evaluation of the replay anchor search at the failing input.  The
source pipeline is `[old, w, y]` with ledger record `(w, add_before y)`; the
target pipeline is `[old]` (anchor `y` missing).  The claimed (and intended,
per the comment on lines 616-619) behavior scans FORWARD from `w` for an
`add_before` directive, exhausts the scan at `y`, and falls back to `append`,
yielding `[old, w]`.  The code sets `shift = -1` in both branches of line
620, so it scans BACKWARD, finds `old`, and anchors `w` before `old`,
yielding `[w, old]`. -/
theorem C1_code_eval :
    copy_custom_behaviors
        (⟨.composer ⟨["old"], [0]⟩, .table [], Option.none⟩ :
          SupportMethodCustomization Nat)
        ⟨.composer ⟨["old", "w", "y"], [0, 2, 1]⟩,
          .table [("w", 2, .add_before "y")], Option.none⟩ =
      .ok ⟨.composer ⟨["w", "old"], [2, 0]⟩,
        .table [("w", 2, .add_before "old")], Option.none⟩ ∧
    (["w", "old"] : List String) ≠ ["old", "w"] := by
  refine ⟨rfl, ?_⟩
  decide

/-- A cache hit is preserved by extending the entry list on the right. -/
theorem cacheLookup_append_of_some (es l : List (ComposerKey × ComposerClass))
    (k : ComposerKey) (x : ComposerClass) (h : cacheLookup es k = some x) :
    cacheLookup (es ++ l) k = some x := by
  induction es with
  | nil => simp [cacheLookup] at h
  | cons e t ih =>
      rw [List.cons_append, cacheLookup]
      rw [cacheLookup] at h
      split at h
      · simp [*] at h ⊢
      · simp [*, ih h]

/-- A missed key is found after appending an entry for it. -/
theorem cacheLookup_append_self (es : List (ComposerKey × ComposerClass))
    (k : ComposerKey) (x : ComposerClass)
    (h : cacheLookup es k = Option.none) :
    cacheLookup (es ++ [(k, x)]) k = some x := by
  induction es with
  | nil => simp [cacheLookup]
  | cons e t ih =>
      rw [cacheLookup] at h
      split at h
      · exact absurd h (by simp)
      · rw [List.cons_append, cacheLookup]
        simp [*, ih h]

/-- Entries already in the cache survive any further request untouched. -/
theorem cacheLookup_metaCall_preserve (c : SigCache) (k k2 : ComposerKey)
    (x : ComposerClass) (h : cacheLookup c.entries k = some x) :
    cacheLookup ((metaCall c k2).1).entries k = some x := by
  rw [metaCall]
  cases h2 : cacheLookup c.entries k2 with
  | some cls => simpa using h
  | none => simpa using cacheLookup_append_of_some _ _ _ _ h

/-- Entries already in the cache survive any sequence of requests. -/
theorem cacheLookup_metaCalls_preserve (rs : List ComposerKey) :
    ∀ (c : SigCache) (k : ComposerKey) (x : ComposerClass),
    cacheLookup c.entries k = some x →
    cacheLookup (metaCalls c rs).entries k = some x := by
  induction rs with
  | nil => intro c k x h; simpa [metaCalls] using h
  | cons r t ih =>
      intro c k x h
      rw [metaCalls, List.foldl_cons]
      exact ih _ _ _ (cacheLookup_metaCall_preserve c k r x h)

/-- A request whose key is cached returns the cached class and leaves the
cache unchanged. -/
theorem metaCall_of_found (c : SigCache) (k : ComposerKey) (x : ComposerClass)
    (h : cacheLookup c.entries k = some x) : metaCall c k = (c, x) := by
  rw [metaCall, h]

/-- After any request, the requested key is cached and maps to the returned
class. -/
theorem metaCall_lookup_self (c : SigCache) (k : ComposerKey) :
    cacheLookup ((metaCall c k).1).entries k = some ((metaCall c k).2) := by
  rw [metaCall]
  cases h : cacheLookup c.entries k with
  | some cls => simpa using h
  | none => simpa using cacheLookup_append_self _ _ _ h

/-- C6: the signature cache is deterministic and reference-stable.  For a key
not yet cached, the first request lazily builds the class through
`create_composer` (first conjunct); an immediately repeated request returns
the very same class (second conjunct); and a repeated request after any
sequence of other requests, which can only extend the cache, still returns
the very same class, never rebuilding it (third conjunct).  Two pipelines
whose step signatures and chain parameter normalize to the same key therefore
share one class. -/
theorem C6_cache_stable (cache : SigCache) (k : ComposerKey)
    (rs : List ComposerKey)
    (hmiss : cacheLookup cache.entries k = Option.none) :
    (metaCall cache k).2 = create_composer k cache.counter ∧
    (metaCall ((metaCall cache k).1) k).2 = (metaCall cache k).2 ∧
    (metaCall (metaCalls ((metaCall cache k).1) rs) k).2 =
      (metaCall cache k).2 := by
  refine ⟨?_, ?_, ?_⟩
  · rw [metaCall, hmiss]
  · rw [metaCall_of_found _ _ _ (metaCall_lookup_self cache k)]
  · rw [metaCall_of_found _ _ _
      (cacheLookup_metaCalls_preserve rs _ _ _ (metaCall_lookup_self cache k))]

/-- Witness for C6 at a concrete empty cache, key and request list. -/
theorem C6_cache_stable_witness :
    cacheLookup (SigCache.mk [] 0).entries ([["feat", "value"]], some "value") =
      Option.none ∧
    ((metaCall ⟨[], 0⟩ ([["feat", "value"]], some "value")).2 =
        create_composer ([["feat", "value"]], some "value") 0 ∧
      (metaCall ((metaCall ⟨[], 0⟩ ([["feat", "value"]], some "value")).1)
          ([["feat", "value"]], some "value")).2 =
        (metaCall ⟨[], 0⟩ ([["feat", "value"]], some "value")).2 ∧
      (metaCall
          (metaCalls ((metaCall ⟨[], 0⟩ ([["feat", "value"]], some "value")).1)
            [([["feat", "other"]], Option.none)])
          ([["feat", "value"]], some "value")).2 =
        (metaCall ⟨[], 0⟩ ([["feat", "value"]], some "value")).2) :=
  ⟨rfl, C6_cache_stable ⟨[], 0⟩ ([["feat", "value"]], some "value")
    [([["feat", "other"]], Option.none)] rfl⟩

/-- Inserting a fresh element anywhere in a duplicate-free list keeps it
duplicate-free. -/
theorem nodup_insertIdx {α : Type _} {l : List α} {a : α} :
    ∀ {n : Nat}, n ≤ l.length → a ∉ l → l.Nodup → (l.insertIdx n a).Nodup := by
  induction l with
  | nil =>
      intro n hn _ _
      have hz : n = 0 := Nat.le_zero.mp hn
      subst hz
      simp
  | cons b t ih =>
      intro n hn ha hl
      cases n with
      | zero =>
          rw [List.insertIdx_zero]
          exact List.nodup_cons.mpr ⟨ha, hl⟩
      | succ m =>
          rw [List.insertIdx_succ_cons]
          rw [List.nodup_cons] at hl
          have hm : m ≤ t.length := Nat.le_of_succ_le_succ hn
          refine List.nodup_cons.mpr ⟨?_, ih hm (fun h => ha (List.mem_cons_of_mem _ h)) hl.2⟩
          rw [List.mem_insertIdx hm]
          rintro (rfl | hbt)
          · exact ha (List.mem_cons_self _ _)
          · exact hl.1 hbt

/-- C10: the implicit `MethodComposer` invariant.  Construction establishes
it, and every operation preserves it: the id list and the method list keep
equal length, ids stay pairwise distinct, and (last conjunct) looking a step
up by the id at any position returns exactly the step stored at that
position, so lookup agrees with execution order. -/
theorem C10_composer_invariant {F : Type} (c c2 : MethodComposer F)
    (f m : F) (funcId name anchor : String) (k : Nat)
    (hInv : Inv c) (hk : k < c.names.length) :
    Inv (MethodComposer.init f funcId) ∧
    (c.prepend name m = .ok c2 → Inv c2) ∧
    (c.append name m = .ok c2 → Inv c2) ∧
    (c.add_after anchor name m = .ok c2 → Inv c2) ∧
    (c.add_before anchor name m = .ok c2 → Inv c2) ∧
    (c.replace name m = .ok c2 → Inv c2) ∧
    (c.remove name = .ok c2 → Inv c2) ∧
    Inv c.reset ∧
    Inv c.clone ∧
    c.getitem (c.names.get ⟨k, hk⟩) =
      .ok (c.methods.get ⟨k, hInv.1 ▸ hk⟩) := by
  obtain ⟨hlen, hnd⟩ := hInv
  refine ⟨⟨rfl, List.nodup_singleton _⟩, ?_, ?_, ?_, ?_, ?_, ?_,
    ⟨rfl, List.nodup_nil⟩, ⟨hlen, hnd⟩, ?_⟩
  · intro h
    rw [MethodComposer.prepend, MethodComposer.checkDuplicates] at h
    split at h
    · exact Except.noConfusion h
    · rename_i hmem
      injection h with h2
      subst h2
      exact ⟨by simp [hlen], List.nodup_cons.mpr ⟨hmem, hnd⟩⟩
  · intro h
    rw [MethodComposer.append, MethodComposer.checkDuplicates] at h
    split at h
    · exact Except.noConfusion h
    · rename_i hmem
      injection h with h2
      subst h2
      exact ⟨by simp [hlen], by simp [List.nodup_append, hnd, hmem]⟩
  · intro h
    rw [MethodComposer.add_after, MethodComposer.checkDuplicates, pyIndex] at h
    split at h
    · exact Except.noConfusion h
    · rename_i hmem
      split at h
      · rename_i hanc
        injection h with h2
        subst h2
        have hidx : c.names.indexOf anchor < c.names.length :=
          List.indexOf_lt_length.mpr hanc
        have hle : c.names.indexOf anchor + 1 ≤ c.names.length := hidx
        refine ⟨?_, nodup_insertIdx hle hmem hnd⟩
        rw [List.length_insertIdx _ _ hle, List.length_insertIdx _ _ (hlen ▸ hle),
          hlen]
      · exact Except.noConfusion h
  · intro h
    rw [MethodComposer.add_before, MethodComposer.checkDuplicates, pyIndex] at h
    split at h
    · exact Except.noConfusion h
    · rename_i hmem
      split at h
      · rename_i hanc
        injection h with h2
        subst h2
        have hidx : c.names.indexOf anchor < c.names.length :=
          List.indexOf_lt_length.mpr hanc
        have hle : c.names.indexOf anchor ≤ c.names.length := Nat.le_of_lt hidx
        refine ⟨?_, nodup_insertIdx hle hmem hnd⟩
        rw [List.length_insertIdx _ _ hle, List.length_insertIdx _ _ (hlen ▸ hle),
          hlen]
      · exact Except.noConfusion h
  · intro h
    rw [MethodComposer.replace, pyIndex] at h
    split at h
    · injection h with h2
      subst h2
      exact ⟨by simp [hlen], hnd⟩
    · exact Except.noConfusion h
  · intro h
    rw [MethodComposer.remove, pyIndex] at h
    split at h
    · rename_i hmem
      injection h with h2
      subst h2
      have hidx : c.names.indexOf name < c.names.length :=
        List.indexOf_lt_length.mpr hmem
      refine ⟨?_, hnd.eraseIdx _⟩
      rw [List.length_eraseIdx_of_lt hidx,
        List.length_eraseIdx_of_lt (hlen ▸ hidx), hlen]
    · exact Except.noConfusion h
  · rw [MethodComposer.getitem, pyIndex]
    have hmem : c.names.get ⟨k, hk⟩ ∈ c.names := List.get_mem c.names k hk
    rw [if_pos hmem]
    have hidx : c.names.indexOf (c.names.get ⟨k, hk⟩) = k := by
      simpa using List.indexOf_getElem hnd k hk
    rw [hidx]
    show pyGet c.methods k = _
    rw [pyGet, List.getElem?_eq_getElem (hlen ▸ hk)]
    rfl


/-- Unfolding equation of the `Except` monad: binding a success. -/
theorem exceptBind_ok {ε α β : Type} (a : α) (g : α → Except ε β) :
    (Except.ok a >>= g) = g a := rfl

/-- Unfolding equation of the `Except` monad: binding a failure. -/
theorem exceptBind_error {ε α β : Type} (e : ε) (g : α → Except ε β) :
    ((Except.error e : Except ε α) >>= g) = Except.error e := rfl

/-- Witness for C10 at a concrete two-step composer. -/
theorem C10_composer_invariant_witness :
    Inv (⟨["old", "a"], [0, 1]⟩ : MethodComposer Nat) ∧
    0 < (⟨["old", "a"], [0, 1]⟩ : MethodComposer Nat).names.length ∧
    (Inv (MethodComposer.init 7 "old") ∧
      ((⟨["old", "a"], [0, 1]⟩ : MethodComposer Nat).prepend "b" 2 =
          .ok ⟨["b", "old", "a"], [2, 0, 1]⟩ → Inv ⟨["b", "old", "a"], [2, 0, 1]⟩) ∧
      ((⟨["old", "a"], [0, 1]⟩ : MethodComposer Nat).append "b" 2 =
          .ok ⟨["b", "old", "a"], [2, 0, 1]⟩ → Inv ⟨["b", "old", "a"], [2, 0, 1]⟩) ∧
      ((⟨["old", "a"], [0, 1]⟩ : MethodComposer Nat).add_after "old" "b" 2 =
          .ok ⟨["b", "old", "a"], [2, 0, 1]⟩ → Inv ⟨["b", "old", "a"], [2, 0, 1]⟩) ∧
      ((⟨["old", "a"], [0, 1]⟩ : MethodComposer Nat).add_before "old" "b" 2 =
          .ok ⟨["b", "old", "a"], [2, 0, 1]⟩ → Inv ⟨["b", "old", "a"], [2, 0, 1]⟩) ∧
      ((⟨["old", "a"], [0, 1]⟩ : MethodComposer Nat).replace "b" 2 =
          .ok ⟨["b", "old", "a"], [2, 0, 1]⟩ → Inv ⟨["b", "old", "a"], [2, 0, 1]⟩) ∧
      ((⟨["old", "a"], [0, 1]⟩ : MethodComposer Nat).remove "b" =
          .ok ⟨["b", "old", "a"], [2, 0, 1]⟩ → Inv ⟨["b", "old", "a"], [2, 0, 1]⟩) ∧
      Inv (⟨["old", "a"], [0, 1]⟩ : MethodComposer Nat).reset ∧
      Inv (⟨["old", "a"], [0, 1]⟩ : MethodComposer Nat).clone ∧
      (⟨["old", "a"], [0, 1]⟩ : MethodComposer Nat).getitem
          ((⟨["old", "a"], [0, 1]⟩ : MethodComposer Nat).names.get
            ⟨0, by decide⟩) =
        .ok ((⟨["old", "a"], [0, 1]⟩ : MethodComposer Nat).methods.get
              ⟨0, (⟨by decide, by decide⟩ :
                    Inv (⟨["old", "a"], [0, 1]⟩ : MethodComposer Nat)).1 ▸
                  (by decide)⟩)) :=
  ⟨⟨by decide, by decide⟩, by decide,
    C10_composer_invariant ⟨["old", "a"], [0, 1]⟩ ⟨["b", "old", "a"], [2, 0, 1]⟩
      7 2 "old" "b" "old" 0 ⟨by decide, by decide⟩ (by decide)⟩

/-- A successful anchor scan returns an identifier of the target list. -/
theorem whileScan_mem (names our : List String) :
    ∀ {i : Nat} {n : String}, whileScan names our i = some n → n ∈ our := by
  intro i
  induction i with
  | zero =>
      intro n h
      rw [whileScan] at h
      exact Option.noConfusion h
  | succ j ih =>
      intro n h
      rw [whileScan] at h
      split at h
      · split at h
        · rename_i hmem
          injection h with h2
          subst h2
          exact hmem
        · exact ih h
      · exact Option.noConfusion h

/-- The four insertion operations: on success, the inserted id was fresh, all
previous ids survive, the new id is present, and the anchor (for the anchored
kinds) was present beforehand. -/
theorem applyOp_insertion_ok {F : Type} {mc c2 : MethodComposer F}
    {op : CompOp} {id : String} {f : F} (hop : isInsertion op = true)
    (h : applyOp mc op id f = .ok c2) :
    id ∉ mc.names ∧ (∀ n ∈ mc.names, n ∈ c2.names) ∧ id ∈ c2.names ∧
    (∀ a, replayAnchor op = some a → a ∈ mc.names) := by
  cases op with
  | prepend =>
      rw [applyOp, MethodComposer.prepend, MethodComposer.checkDuplicates] at h
      split at h
      · exact Except.noConfusion h
      · rename_i hmem
        injection h with h2
        subst h2
        exact ⟨hmem, fun n hn => List.mem_cons_of_mem _ hn,
          List.mem_cons_self _ _, fun a ha => Option.noConfusion ha⟩
  | append =>
      rw [applyOp, MethodComposer.append, MethodComposer.checkDuplicates] at h
      split at h
      · exact Except.noConfusion h
      · rename_i hmem
        injection h with h2
        subst h2
        refine ⟨hmem, fun n hn => List.mem_append_left _ hn, ?_,
          fun a ha => Option.noConfusion ha⟩
        exact List.mem_append_right _ (List.mem_singleton.mpr rfl)
  | add_after a =>
      rw [applyOp, MethodComposer.add_after, MethodComposer.checkDuplicates,
        pyIndex] at h
      split at h
      · exact Except.noConfusion h
      · rename_i hmem
        split at h
        · rename_i hanc
          injection h with h2
          subst h2
          have hle : mc.names.indexOf a + 1 ≤ mc.names.length :=
            List.indexOf_lt_length.mpr hanc
          refine ⟨hmem, fun n hn => (List.mem_insertIdx hle).mpr (Or.inr hn),
            (List.mem_insertIdx hle).mpr (Or.inl rfl), ?_⟩
          intro a2 ha2
          rw [replayAnchor] at ha2
          injection ha2 with h3
          subst h3
          exact hanc
        · exact Except.noConfusion h
  | add_before a =>
      rw [applyOp, MethodComposer.add_before, MethodComposer.checkDuplicates,
        pyIndex] at h
      split at h
      · exact Except.noConfusion h
      · rename_i hmem
        split at h
        · rename_i hanc
          injection h with h2
          subst h2
          have hle : mc.names.indexOf a ≤ mc.names.length :=
            Nat.le_of_lt (List.indexOf_lt_length.mpr hanc)
          refine ⟨hmem, fun n hn => (List.mem_insertIdx hle).mpr (Or.inr hn),
            (List.mem_insertIdx hle).mpr (Or.inl rfl), ?_⟩
          intro a2 ha2
          rw [replayAnchor] at ha2
          injection ha2 with h3
          subst h3
          exact hanc
        · exact Except.noConfusion h
  | replace a => simp [isInsertion] at hop
  | remove a => simp [isInsertion] at hop

/-- The ledger-update step stores an insertion directive verbatim under its
modification id. -/
theorem updateCustoms_insertion {F : Type} (E : List (String × F × CompOp))
    (c2 : MethodComposer F) {op : CompOp} (id : String) (f : F)
    (hop : isInsertion op = true) :
    updateCustoms E c2 op id f = .ok (updateOrAppend E id (f, op)) := by
  cases op <;> first | rfl | simp [isInsertion] at hop

/-- An `OrderedDict` assignment with a fresh key appends the record. -/
theorem updateOrAppend_of_fresh {F : Type} (E : List (String × F × CompOp))
    (key : String) (v : F × CompOp) (h : ∀ e ∈ E, e.1 ≠ key) :
    updateOrAppend E key v = E ++ [(key, v)] := by
  induction E with
  | nil => rfl
  | cons e t ih =>
      rw [updateOrAppend, if_neg (h e (List.mem_cons_self _ _)),
        ih (fun x hx => h x (List.mem_cons_of_mem _ hx)), List.cons_append]

/-- A customs value with a ledger view has that view as its setup list. -/
theorem ledgerSetup_of_view {F : Type} {cu : Customs F}
    {E : List (String × F × CompOp)} (h : ledgerView cu = some E) :
    ledgerSetup cu = E := by
  cases cu with
  | absent =>
      rw [ledgerView] at h
      injection h with h2
      try exact h2
  | plain f => exact Option.noConfusion h
  | table es =>
      rw [ledgerView] at h
      injection h with h2
      try exact h2

/-- Unfolding of `modify_behavior` for a nonempty non-internal directive:
success case. -/
theorem modify_some_false_ok {F : Type} (st : SupportMethodCustomization F)
    (f : F) (op : CompOp) (id : String) {c2 : MethodComposer F}
    {es2 : List (String × F × CompOp)}
    (happ : applyOp (ensureComposer st) op id f = .ok c2)
    (hupd : updateCustoms (ledgerSetup st.customs) c2 op id f = .ok es2) :
    modify_behavior st f (some op) id false =
      .ok ⟨.composer c2, .table es2, st.oldIds⟩ := by
  show (applyOp (ensureComposer st) op id f >>= fun c2 =>
      (updateCustoms (ledgerSetup st.customs) c2 op id f >>= fun es2 =>
        (Except.ok (SupportMethodCustomization.mk (Slot.composer c2)
            (Customs.table es2) st.oldIds) :
          Except CompErr (SupportMethodCustomization F)))) = _
  rw [happ, exceptBind_ok, hupd, exceptBind_ok]

/-- Unfolding of `modify_behavior`: the composer operation failed. -/
theorem modify_some_false_err1 {F : Type} (st : SupportMethodCustomization F)
    (f : F) (op : CompOp) (id : String) {e : CompErr}
    (happ : applyOp (ensureComposer st) op id f = .error e) :
    modify_behavior st f (some op) id false = .error e := by
  show (applyOp (ensureComposer st) op id f >>= fun c2 =>
      (updateCustoms (ledgerSetup st.customs) c2 op id f >>= fun es2 =>
        (Except.ok (SupportMethodCustomization.mk (Slot.composer c2)
            (Customs.table es2) st.oldIds) :
          Except CompErr (SupportMethodCustomization F)))) = _
  rw [happ, exceptBind_error]

/-- Unfolding of `modify_behavior`: the ledger update failed. -/
theorem modify_some_false_err2 {F : Type} (st : SupportMethodCustomization F)
    (f : F) (op : CompOp) (id : String) {c2 : MethodComposer F} {e : CompErr}
    (happ : applyOp (ensureComposer st) op id f = .ok c2)
    (hupd : updateCustoms (ledgerSetup st.customs) c2 op id f = .error e) :
    modify_behavior st f (some op) id false = .error e := by
  show (applyOp (ensureComposer st) op id f >>= fun c2 =>
      (updateCustoms (ledgerSetup st.customs) c2 op id f >>= fun es2 =>
        (Except.ok (SupportMethodCustomization.mk (Slot.composer c2)
            (Customs.table es2) st.oldIds) :
          Except CompErr (SupportMethodCustomization F)))) = _
  rw [happ, exceptBind_ok, hupd, exceptBind_error]

/-- Full analysis of a successful non-internal insertion through
`modify_behavior` on a composed slot: the composer operation succeeded, the
new state is exactly the updated composer plus the ledger extended at the
end with the verbatim record, all previously registered ids survive, and
the directive anchor (when any) was present. -/
theorem modify_insertion_analysis {F : Type}
    {st st2 : SupportMethodCustomization F} {mc : MethodComposer F}
    {E : List (String × F × CompOp)} {id : String} {f : F} {op : CompOp}
    (hop : isInsertion op = true) (hslot : st.slot = .composer mc)
    (hview : ledgerView st.customs = some E)
    (hids : ∀ e ∈ E, e.1 ∈ mc.names)
    (h : modify_behavior st f (some op) id false = .ok st2) :
    ∃ c2, applyOp mc op id f = .ok c2 ∧
      st2 = ⟨.composer c2, .table (E ++ [(id, f, op)]), st.oldIds⟩ ∧
      (∀ e ∈ E ++ [(id, f, op)], e.1 ∈ c2.names) ∧
      (∀ a, replayAnchor op = some a → a ∈ mc.names) := by
  have hcomp : ensureComposer st = mc := by rw [ensureComposer, hslot]
  cases happ : applyOp (ensureComposer st) op id f with
  | error e =>
      rw [modify_some_false_err1 st f op id happ] at h
      exact Except.noConfusion h
  | ok c2 =>
      rw [hcomp] at happ
      obtain ⟨hfresh, hkeep, hnew, hanch⟩ := applyOp_insertion_ok hop happ
      have hupd : updateCustoms E c2 op id f =
          .ok (updateOrAppend E id (f, op)) :=
        updateCustoms_insertion E c2 id f hop
      rw [modify_some_false_ok st f op id (by rw [hcomp]; exact happ)
        (by rw [ledgerSetup_of_view hview]; exact hupd)] at h
      injection h with h2
      refine ⟨c2, happ, ?_, ?_, hanch⟩
      · rw [← h2, updateOrAppend_of_fresh E id (f, op)
          (fun e he heq => hfresh (heq ▸ hids e he))]
      · intro e he
        rw [List.mem_append] at he
        rcases he with he | he
        · exact hkeep _ (hids e he)
        · rw [List.mem_singleton] at he
          subst he
          exact hnew

/-- When the slot is a composer holding the anchor, replay applies an
insertion directive verbatim through `modify_behavior`. -/
theorem replayModifier_eq_modify {F : Type}
    {st obj : SupportMethodCustomization F} {mc : MethodComposer F}
    {id : String} {f : F} {op : CompOp}
    (hop : isInsertion op = true) (hslot : st.slot = .composer mc)
    (hanch : ∀ a, replayAnchor op = some a → a ∈ mc.names) :
    replayModifier st obj id f op = modify_behavior st f (some op) id false := by
  cases op with
  | prepend => rfl
  | append => rfl
  | add_after a =>
      rw [replayModifier]
      simp only [replayAnchor, hslot]
      rw [if_pos (hanch a rfl)]
  | add_before a =>
      rw [replayModifier]
      simp only [replayAnchor, hslot]
      rw [if_pos (hanch a rfl)]
      intro x hx
      exact CompOp.noConfusion hx
  | replace a => simp [isInsertion] at hop
  | remove a => simp [isInsertion] at hop

/-- A non-internal insertion through `modify_behavior` can fail only with
`DuplicateIdentifier` or with the anchor lookup; when the slot is a composer
containing the anchor (or the directive has no anchor), `AnchorNotFound` is
impossible. -/
theorem modify_insertion_no_anchor_err {F : Type}
    {st : SupportMethodCustomization F} {id : String} {f : F} {op : CompOp}
    (hop : isInsertion op = true)
    (hanch : ∀ a, replayAnchor op = some a →
      ∃ mc, st.slot = .composer mc ∧ a ∈ mc.names) :
    modify_behavior st f (some op) id false ≠ .error .anchorNotFound := by
  intro h
  cases happ : applyOp (ensureComposer st) op id f with
  | ok c2 =>
      rw [modify_some_false_ok st f op id happ
        (updateCustoms_insertion _ c2 id f hop)] at h
      exact Except.noConfusion h
  | error e =>
      rw [modify_some_false_err1 st f op id happ] at h
      injection h with h2
      subst h2
      revert happ
      cases op with
      | prepend =>
          rw [applyOp, MethodComposer.prepend, MethodComposer.checkDuplicates]
          split
          · intro happ
            injection happ with h3
            exact CompErr.noConfusion h3
          · intro happ
            exact Except.noConfusion happ
      | append =>
          rw [applyOp, MethodComposer.append, MethodComposer.checkDuplicates]
          split
          · intro happ
            injection happ with h3
            exact CompErr.noConfusion h3
          · intro happ
            exact Except.noConfusion happ
      | add_after a =>
          obtain ⟨mc, hslot, hmem⟩ := hanch a rfl
          have hcomp : ensureComposer st = mc := by rw [ensureComposer, hslot]
          rw [hcomp, applyOp, MethodComposer.add_after,
            MethodComposer.checkDuplicates, pyIndex, if_pos hmem]
          split
          · intro happ
            injection happ with h3
            exact CompErr.noConfusion h3
          · intro happ
            exact Except.noConfusion happ
      | add_before a =>
          obtain ⟨mc, hslot, hmem⟩ := hanch a rfl
          have hcomp : ensureComposer st = mc := by rw [ensureComposer, hslot]
          rw [hcomp, applyOp, MethodComposer.add_before,
            MethodComposer.checkDuplicates, pyIndex, if_pos hmem]
          split
          · intro happ
            injection happ with h3
            exact CompErr.noConfusion h3
          · intro happ
            exact Except.noConfusion happ
      | replace a => simp [isInsertion] at hop
      | remove a => simp [isInsertion] at hop

/-- Replay applies a directive without replay anchor verbatim. -/
theorem replayModifier_of_no_anchor {F : Type}
    {self obj : SupportMethodCustomization F} {id : String} {f : F}
    {op : CompOp} (hro : replayAnchor op = Option.none) :
    replayModifier self obj id f op =
      modify_behavior self f (some op) id false := by
  cases op <;> first | rfl | exact Option.noConfusion hro

/-- Replay downgrades an anchored directive to `append`/`prepend` when the
target slot is still a plain callable (lines 599-605). -/
theorem replayModifier_plain {F : Type}
    {self obj : SupportMethodCustomization F} {g : F} {id : String} {f : F}
    {op : CompOp} {anchor : String} (hro : replayAnchor op = some anchor)
    (hslot : self.slot = .plain g) :
    replayModifier self obj id f op =
      modify_behavior self f
        (some (match op with
          | .add_after _ => CompOp.append
          | _ => CompOp.prepend)) id false := by
  cases op <;> try exact Option.noConfusion hro
  all_goals (rw [replayModifier]; simp only [replayAnchor, hslot])
  all_goals (intro x hx; exact CompOp.noConfusion hx)

/-- Replay in the degraded branch: target composer misses the anchor, the
record id is looked up in the source composer, scanned, and the directive is
re-anchored or falls back to `prepend` (lines 607-634). -/
theorem replayModifier_scan_eq {F : Type}
    {self obj : SupportMethodCustomization F} {mc oc : MethodComposer F}
    {id : String} {f : F} {op : CompOp} {anchor : String}
    (hro : replayAnchor op = some anchor)
    (hslot : self.slot = .composer mc) (hmem : anchor ∉ mc.names)
    (hobj : obj.slot = .composer oc) (hid : id ∈ oc.names) :
    replayModifier self obj id f op =
      match whileScan oc.names mc.names (oc.names.indexOf id) with
      | some name =>
          modify_behavior self f (some (withAnchor op name)) id false
      | Option.none =>
          modify_behavior self f (some CompOp.prepend) id false := by
  cases op <;> try exact Option.noConfusion hro
  all_goals (
    injection hro with h2
    subst h2
    rw [replayModifier]
    simp only [replayAnchor, hslot, hobj, exceptBind_ok]
    rw [if_neg hmem]
    rw [pyIndex, if_pos hid]
    simp only [exceptBind_ok])
  all_goals (intro x hx; exact CompOp.noConfusion hx)

/-- One replay step never raises `AnchorNotFound` when the record holds an
insertion directive whose id resolves in the source object. -/
theorem replayModifier_no_anchor_err {F : Type}
    {self obj : SupportMethodCustomization F} {id : String} {f : F}
    {op : CompOp} (hop : isInsertion op = true)
    (hsrc : replayAnchor op ≠ Option.none → anchorIdOk obj id = true) :
    replayModifier self obj id f op ≠ .error .anchorNotFound := by
  cases hro : replayAnchor op with
  | none =>
      rw [replayModifier_of_no_anchor hro]
      exact modify_insertion_no_anchor_err hop
        (fun a ha => absurd ha (by rw [hro]; exact fun hc => Option.noConfusion hc))
  | some anchor =>
      have hobj : anchorIdOk obj id = true := hsrc (by rw [hro]; simp)
      cases hslot : self.slot with
      | plain g =>
          rw [replayModifier_plain hro hslot]
          apply modify_insertion_no_anchor_err
          · cases op <;> rfl
          · intro a2 ha2
            exfalso
            revert ha2
            cases op <;> (intro ha2; exact Option.noConfusion ha2)
      | composer mc =>
          by_cases hmem : anchor ∈ mc.names
          · rw [replayModifier_eq_modify hop hslot
              (fun a ha => by
                rw [hro] at ha
                injection ha with h3
                subst h3
                exact hmem)]
            refine modify_insertion_no_anchor_err hop ?_
            intro a2 ha2
            rw [hro] at ha2
            injection ha2 with h3
            subst h3
            exact ⟨mc, hslot, hmem⟩
          · cases hobjslot : obj.slot with
            | plain g =>
                rw [anchorIdOk.eq_def, hobjslot] at hobj
                exact Bool.noConfusion hobj
            | composer oc =>
                rw [anchorIdOk.eq_def, hobjslot] at hobj
                have hidmem : id ∈ oc.names := List.mem_of_elem_eq_true hobj
                rw [replayModifier_scan_eq hro hslot hmem hobjslot hidmem]
                cases hscan : whileScan oc.names mc.names (oc.names.indexOf id) with
                | none =>
                    exact modify_insertion_no_anchor_err (by rfl)
                      (fun a ha => Option.noConfusion ha)
                | some nm =>
                    have hnm : nm ∈ mc.names := whileScan_mem _ _ hscan
                    refine modify_insertion_no_anchor_err ?_ ?_
                    · cases op <;> first
                        | rfl
                        | simp [isInsertion] at hop
                    · intro a2 ha2
                      refine ⟨mc, hslot, ?_⟩
                      revert ha2
                      cases op <;> first
                        | (intro ha2; exact Option.noConfusion ha2)
                        | (rw [withAnchor, replayAnchor]
                           intro ha2
                           injection ha2 with h3
                           subst h3
                           exact hnm)

/-- The replay fold over well-formed insertion records never raises
`AnchorNotFound`, whatever the target state. -/
theorem replayFold_no_anchor_err {F : Type} (obj : SupportMethodCustomization F) :
    ∀ (es : List (String × F × CompOp)) (self : SupportMethodCustomization F),
    (∀ e ∈ es, isInsertion e.2.2 = true ∧
      (replayAnchor e.2.2 ≠ Option.none → anchorIdOk obj e.1 = true)) →
    es.foldlM (fun s e => replayModifier s obj e.1 e.2.1 e.2.2) self ≠
      .error .anchorNotFound := by
  intro es
  induction es with
  | nil =>
      intro self _ h
      exact Except.noConfusion h
  | cons e t ih =>
      intro self hwf
      rw [List.foldlM_cons]
      obtain ⟨h1, h2⟩ := hwf e (List.mem_cons_self _ _)
      cases hstep : replayModifier self obj e.1 e.2.1 e.2.2 with
      | error err =>
          rw [exceptBind_error]
          intro hcontra
          injection hcontra with h3
          subst h3
          exact replayModifier_no_anchor_err h1 h2 hstep
      | ok s2 =>
          rw [exceptBind_ok]
          exact ih s2 (fun x hx => hwf x (List.mem_cons_of_mem _ hx))

/-- C2 (amended): `copy_custom_behaviors` never raises `AnchorNotFound`
provided the source ledger is well formed in the sense of `WFLedger`: its
table records hold insertion directives, each registered under a
modification id that is present in the source pipeline.  The first half of
`WFLedger` excludes no reachable state (`modify_behavior` stores only
insertion records: `remove` deletes a record and `replace` merges into one),
but the second half can reachably fail: the `remove` bookkeeping of line 551
deletes the record under the CALL argument `modif_id`, not under the removed
id `specifiers[1]`, so a `remove` issued under a different modification id
leaves an anchored record whose own id is gone from the source pipeline, and
replay then fails at the `names.index(custom)` lookup of line 621 — see the
counterexample below the witness. -/
theorem C2_replay_never_anchor_error {F : Type}
    (self obj : SupportMethodCustomization F) (hwf : WFLedger obj) :
    copy_custom_behaviors self obj ≠ .error .anchorNotFound := by
  rw [copy_custom_behaviors]
  cases hcu : obj.customs with
  | absent => intro h; exact Except.noConfusion h
  | plain f => intro h; exact Except.noConfusion h
  | table es =>
      exact replayFold_no_anchor_err obj es self
        (fun e he => hwf e (by rw [hcu]; exact he))

/-- Witness for C2: a source with a dangling anchored record replays onto a
target that lacks the anchor without any error at all. -/
theorem C2_replay_never_anchor_error_witness :
    WFLedger (⟨.composer ⟨["old", "w", "y"], [0, 2, 1]⟩,
        .table [("w", 2, .add_after "y")], Option.none⟩ :
      SupportMethodCustomization Nat) ∧
    copy_custom_behaviors
        (⟨.composer ⟨["old"], [0]⟩, .table [], Option.none⟩ :
          SupportMethodCustomization Nat)
        ⟨.composer ⟨["old", "w", "y"], [0, 2, 1]⟩,
          .table [("w", 2, .add_after "y")], Option.none⟩ ≠
      .error .anchorNotFound :=
  ⟨by decide,
    C2_replay_never_anchor_error _ _ (by decide)⟩

/-- C2 counterexample: replay CAN raise `AnchorNotFound` for a reachable
source object, so the unamended claim fails.  Starting from the pipeline
`[old]`, the directives append `a`, append `d`, insert `b` after `a`, then
remove step `b` under modification id `a`: line 551 deletes the ledger
record `a` (the call argument) while the step removed from the pipeline is
`b`, leaving the anchored record `(b, add_after a)` with id `b` no longer in
the source pipeline `[old, a, d]`.  Replaying onto a fresh target with the
identical starting pipeline applies record `d`, then takes the degraded
branch for record `b` (anchor `a` is missing from the target) and fails at
the line 621 lookup of `b` in the source pipeline, raising
`AnchorNotFound`. -/
theorem C2_counterexample :
    applyDirectives
        (⟨.composer ⟨["old"], [0]⟩, .absent, Option.none⟩ :
          SupportMethodCustomization Nat)
        [("a", 1, .append), ("d", 2, .append), ("b", 3, .add_after "a"),
         ("a", 0, .remove "b")] =
      .ok ⟨.composer ⟨["old", "a", "d"], [0, 1, 2]⟩,
        .table [("d", 2, .append), ("b", 3, .add_after "a")], Option.none⟩ ∧
    copy_custom_behaviors
        (⟨.composer ⟨["old"], [0]⟩, .absent, Option.none⟩ :
          SupportMethodCustomization Nat)
        ⟨.composer ⟨["old", "a", "d"], [0, 1, 2]⟩,
          .table [("d", 2, .append), ("b", 3, .add_after "a")], Option.none⟩ =
      .error .anchorNotFound :=
  ⟨rfl, rfl⟩

/-- Round-trip induction: applying an insertion-only directive list to a
composed object both extends the ledger verbatim and is reproduced step by
step by the replay fold, whatever source object the replay quotes. -/
theorem applyDirectives_replay {F : Type} (obj : SupportMethodCustomization F) :
    ∀ (D : List (String × F × CompOp)) (st A2 : SupportMethodCustomization F)
      (mc : MethodComposer F) (E : List (String × F × CompOp)),
    (∀ d ∈ D, isInsertion d.2.2 = true) →
    st.slot = .composer mc → ledgerView st.customs = some E →
    (∀ e ∈ E, e.1 ∈ mc.names) →
    applyDirectives st D = .ok A2 →
    (D = [] → A2 = st) ∧
    (D ≠ [] → A2.customs = .table (E ++ D)) ∧
    D.foldlM (fun s e => replayModifier s obj e.1 e.2.1 e.2.2) st = .ok A2 := by
  intro D
  induction D with
  | nil =>
      intro st A2 mc E _ _ _ _ happly
      rw [applyDirectives, List.foldlM_nil] at happly
      injection happly with h2
      subst h2
      exact ⟨fun _ => rfl, fun hne => absurd rfl hne, rfl⟩
  | cons d t ih =>
      intro st A2 mc E hins hslot hview hids happly
      rw [applyDirectives, List.foldlM_cons] at happly
      cases hstep : modify_behavior st d.2.1 (some d.2.2) d.1 false with
      | error e =>
          rw [hstep, exceptBind_error] at happly
          exact Except.noConfusion happly
      | ok st1 =>
          rw [hstep, exceptBind_ok] at happly
          have hd : isInsertion d.2.2 = true := hins d (List.mem_cons_self _ _)
          obtain ⟨c2, happOp, hst1, hkeep, hanch⟩ :=
            modify_insertion_analysis hd hslot hview hids hstep
          have hslot1 : st1.slot = .composer c2 := by rw [hst1]
          have hview1 : ledgerView st1.customs = some (E ++ [(d.1, d.2.1, d.2.2)]) := by
            rw [hst1]
            rfl
          have ht := ih st1 A2 c2 (E ++ [(d.1, d.2.1, d.2.2)])
            (fun x hx => hins x (List.mem_cons_of_mem _ hx))
            hslot1 hview1 hkeep happly
          refine ⟨fun hcon => List.noConfusion hcon, fun _ => ?_, ?_⟩
          · rcases ht with ⟨hnil, htab, _⟩
            by_cases hte : t = []
            · subst hte
              rw [hnil rfl, hst1]
            · rw [htab hte]
              simp
          · rw [List.foldlM_cons,
              replayModifier_eq_modify hd hslot hanch, hstep, exceptBind_ok]
            exact ht.2.2

/-- C3 (amended): the round trip holds for insertion-only directive
sequences.  Object `A` starts with its operation bound to the pipeline `c0`
and an empty ledger; applying any successful sequence `D` of
`Prepend`/`Append`/`InsertBefore`/`InsertAfter` directives and then replaying
the resulting ledger onto a fresh `B` with the identical starting pipeline
reproduces the full final state of `A`: identifier order, step contents and
ledger. -/
theorem C3_roundtrip_insertions {F : Type} (c0 : MethodComposer F)
    (D : List (String × F × CompOp)) (A2 : SupportMethodCustomization F)
    (hins : ∀ d ∈ D, isInsertion d.2.2 = true)
    (happly : applyDirectives
      ⟨.composer c0, .absent, Option.none⟩ D = .ok A2) :
    copy_custom_behaviors ⟨.composer c0, .absent, Option.none⟩ A2 = .ok A2 := by
  obtain ⟨hnil, htab, hfold⟩ := applyDirectives_replay A2 D
    ⟨.composer c0, .absent, Option.none⟩ A2 c0 [] hins rfl rfl
    (fun e he => absurd he (List.not_mem_nil e)) happly
  cases D with
  | nil =>
      rw [hnil rfl]
      rfl
  | cons d t =>
      rw [copy_custom_behaviors]
      rw [htab (fun hcon => List.noConfusion hcon)]
      simpa using hfold

/-- Witness for C3 (amended) at a concrete insertion-only sequence. -/
theorem C3_roundtrip_insertions_witness :
    (∀ d ∈ ([("a", 1, .append), ("b", 2, .add_before "a")] :
        List (String × Nat × CompOp)), isInsertion d.2.2 = true) ∧
    applyDirectives
        (⟨.composer ⟨["old"], [0]⟩, .absent, Option.none⟩ :
          SupportMethodCustomization Nat)
        [("a", 1, .append), ("b", 2, .add_before "a")] =
      .ok ⟨.composer ⟨["old", "b", "a"], [0, 2, 1]⟩,
        .table [("a", 1, .append), ("b", 2, .add_before "a")], Option.none⟩ ∧
    copy_custom_behaviors
        (⟨.composer ⟨["old"], [0]⟩, .absent, Option.none⟩ :
          SupportMethodCustomization Nat)
        ⟨.composer ⟨["old", "b", "a"], [0, 2, 1]⟩,
          .table [("a", 1, .append), ("b", 2, .add_before "a")], Option.none⟩ =
      .ok ⟨.composer ⟨["old", "b", "a"], [0, 2, 1]⟩,
        .table [("a", 1, .append), ("b", 2, .add_before "a")], Option.none⟩ :=
  ⟨by decide, rfl,
    C3_roundtrip_insertions ⟨["old"], [0]⟩
      [("a", 1, .append), ("b", 2, .add_before "a")] _ (by decide) rfl⟩

/-- C3 counterexample: for a sequence containing a `Remove`, the round trip
fails.  `A` starts as the one-step pipeline `[old]`; the sequence appends
`a`, inserts `b` after `a` and then removes `a`, leaving `A` with pipeline
`[old, b]` and the single ledger record `(b, add_after a)`.  Replaying onto
a fresh `B` with the identical starting pipeline cannot resolve the dangling
anchor `a`, scans without success and degrades to `prepend`, yielding
`[b, old]`, which differs from the order of `A`. -/
theorem C3_counterexample :
    (applyDirectives
        (⟨.composer ⟨["old"], [0]⟩, .absent, Option.none⟩ :
          SupportMethodCustomization Nat)
        [("a", 1, .append), ("b", 2, .add_after "a"), ("a", 0, .remove "a")]
      |>.bind (fun A2 =>
        (copy_custom_behaviors ⟨.composer ⟨["old"], [0]⟩, .absent, Option.none⟩
            A2).map (fun B2 => (pipeNames A2, pipeNames B2)))) =
      .ok (["old", "b"], ["b", "old"]) ∧
    (["b", "old"] : List String) ≠ ["old", "b"] := by
  refine ⟨rfl, by decide⟩

/-- Reassigning a key finds the new value. -/
theorem tableFind_updateOrAppend_self {F : Type}
    (E : List (String × F × CompOp)) (key : String) (v : F × CompOp) :
    tableFind (updateOrAppend E key v) key = some v := by
  induction E with
  | nil => simp [updateOrAppend, tableFind]
  | cons e t ih =>
      rw [updateOrAppend]
      split
      · rw [tableFind]
        simp
      · rename_i hne
        rw [tableFind, if_neg hne]
        exact ih

/-- Reassigning a key leaves every other key unchanged. -/
theorem tableFind_updateOrAppend_ne {F : Type}
    (E : List (String × F × CompOp)) (key k : String) (v : F × CompOp)
    (hne : k ≠ key) :
    tableFind (updateOrAppend E key v) k = tableFind E k := by
  induction E with
  | nil => simp [updateOrAppend, tableFind, Ne.symm hne]
  | cons e t ih =>
      rw [updateOrAppend]
      split
      · rename_i he
        rw [tableFind, tableFind, if_neg (fun h : key = k => hne h.symm),
          if_neg (fun h : e.1 = k => hne (h ▸ he))]
      · rw [tableFind, tableFind]
        split
        · rfl
        · exact ih

/-- A key that does not occur in the record list is not found. -/
theorem tableFind_eq_none_of_not_mem {F : Type}
    (E : List (String × F × CompOp)) (key : String)
    (h : key ∉ E.map Prod.fst) : tableFind E key = Option.none := by
  induction E with
  | nil => rfl
  | cons e t ih =>
      rw [List.map_cons, List.mem_cons] at h
      push_neg at h
      rw [tableFind, if_neg (fun he => h.1 he.symm)]
      exact ih h.2

/-- Deleting a present key from a duplicate-free record list succeeds,
removes exactly that record and preserves every other lookup. -/
theorem tableDelete_of_find {F : Type} (E : List (String × F × CompOp))
    (key : String) (v : F × CompOp) (hnd : keysNodup E)
    (h : tableFind E key = some v) :
    ∃ E2, tableDelete E key = .ok E2 ∧ tableFind E2 key = Option.none ∧
      ∀ k, k ≠ key → tableFind E2 k = tableFind E k := by
  induction E with
  | nil =>
      rw [tableFind] at h
      exact Option.noConfusion h
  | cons e t ih =>
      rw [keysNodup, List.map_cons, List.nodup_cons] at hnd
      rw [tableFind] at h
      split at h
      · rename_i he
        refine ⟨t, ?_, ?_, ?_⟩
        · rw [tableDelete, if_pos he]
        · exact tableFind_eq_none_of_not_mem t key (he ▸ hnd.1)
        · intro k hk
          rw [tableFind, if_neg (fun hek : e.1 = k => hk ((hek ▸ he).symm ▸ rfl))]
      · rename_i he
        obtain ⟨E2, h1, h2, h3⟩ := ih hnd.2 h
        refine ⟨e :: E2, ?_, ?_, ?_⟩
        · rw [tableDelete, if_neg he, h1, exceptBind_ok]
        · rw [tableFind, if_neg he]
          exact h2
        · intro k hk
          rw [tableFind, tableFind]
          split
          · rfl
          · exact h3 k hk

/-- C9: ledger bookkeeping for `Remove` and `ReplaceNamed` directives on a
composed slot with a table ledger of distinct keys.  A non-internal `remove`
deletes the ledger record registered under the affected modification id
(line 551) and touches no other record; a non-internal `replace` whose
target is recorded in the ledger swaps in the new function while keeping the
originally recorded directive (lines 552-557) and touches no other record,
so a later replay reproduces the net effect. -/
theorem C9_ledger_bookkeeping {F : Type} (st : SupportMethodCustomization F)
    (mc : MethodComposer F) (E : List (String × F × CompOp)) (f g : F)
    (modifId anchor : String) (dir : CompOp)
    (hslot : st.slot = .composer mc) (hcust : st.customs = .table E)
    (hnd : keysNodup E) (hanch : anchor ∈ mc.names) :
    ((∃ v, tableFind E modifId = some v) →
      ∃ st2, modify_behavior st f (some (.remove anchor)) modifId false =
          .ok st2 ∧
        ∃ es2, st2.customs = .table es2 ∧
          tableFind es2 modifId = Option.none ∧
          ∀ k, k ≠ modifId → tableFind es2 k = tableFind E k) ∧
    (tableFind E anchor = some (g, dir) →
      ∃ st2, modify_behavior st f (some (.replace anchor)) modifId false =
          .ok st2 ∧
        ∃ es2, st2.customs = .table es2 ∧
          tableFind es2 anchor = some (f, dir) ∧
          ∀ k, k ≠ anchor → tableFind es2 k = tableFind E k) := by
  have hcomp : ensureComposer st = mc := by rw [ensureComposer, hslot]
  have hsetup : ledgerSetup st.customs = E := by rw [hcust]; rfl
  constructor
  · rintro ⟨v, hfind⟩
    obtain ⟨E2, hdel, hnone, hpres⟩ := tableDelete_of_find E modifId v hnd hfind
    have happ : applyOp mc (.remove anchor) modifId f =
        .ok ⟨mc.names.eraseIdx (mc.names.indexOf anchor),
             mc.methods.eraseIdx (mc.names.indexOf anchor)⟩ := by
      rw [applyOp, MethodComposer.remove, pyIndex, if_pos hanch, exceptBind_ok]
    refine ⟨_, modify_some_false_ok st f (.remove anchor) modifId
      (by rw [hcomp]; exact happ) (by rw [hsetup]; exact hdel), E2, rfl,
      hnone, hpres⟩
  · intro hfind
    have happ : applyOp mc (.replace anchor) modifId f =
        .ok ⟨mc.names, mc.methods.set (mc.names.indexOf anchor) f⟩ := by
      rw [applyOp, MethodComposer.replace, pyIndex, if_pos hanch, exceptBind_ok]
    have hupd : updateCustoms E
        ⟨mc.names, mc.methods.set (mc.names.indexOf anchor) f⟩
        (.replace anchor) modifId f =
        .ok (updateOrAppend E anchor (f, dir)) := by
      rw [updateCustoms, hfind]
    refine ⟨_, modify_some_false_ok st f (.replace anchor) modifId
      (by rw [hcomp]; exact happ) (by rw [hsetup]; exact hupd),
      updateOrAppend E anchor (f, dir), rfl,
      tableFind_updateOrAppend_self E anchor (f, dir),
      fun k hk => tableFind_updateOrAppend_ne E anchor k (f, dir) hk⟩

/-- Witness for C9 at a concrete state: remove the record `b`, replace the
step of record `a`. -/
theorem C9_ledger_bookkeeping_witness :
    ((⟨.composer ⟨["old", "a", "b"], [0, 1, 2]⟩,
        .table [("a", 1, .append), ("b", 2, .add_after "a")], Option.none⟩ :
      SupportMethodCustomization Nat).slot =
        .composer ⟨["old", "a", "b"], [0, 1, 2]⟩) ∧
    keysNodup ([("a", 1, .append), ("b", 2, .add_after "a")] :
      List (String × Nat × CompOp)) ∧
    ("a" ∈ (⟨["old", "a", "b"], [0, 1, 2]⟩ : MethodComposer Nat).names) ∧
    (((∃ v, tableFind [("a", 1, .append), ("b", 2, .add_after "a")] "b" =
        some v) →
      ∃ st2, modify_behavior
          (⟨.composer ⟨["old", "a", "b"], [0, 1, 2]⟩,
            .table [("a", 1, .append), ("b", 2, .add_after "a")],
            Option.none⟩ : SupportMethodCustomization Nat) 9
          (some (.remove "a")) "b" false = .ok st2 ∧
        ∃ es2, st2.customs = .table es2 ∧
          tableFind es2 "b" = Option.none ∧
          ∀ k, k ≠ "b" → tableFind es2 k =
            tableFind [("a", 1, .append), ("b", 2, .add_after "a")] k) ∧
    (tableFind [("a", 1, .append), ("b", 2, .add_after "a")] "a" =
        some (1, .append) →
      ∃ st2, modify_behavior
          (⟨.composer ⟨["old", "a", "b"], [0, 1, 2]⟩,
            .table [("a", 1, .append), ("b", 2, .add_after "a")],
            Option.none⟩ : SupportMethodCustomization Nat) 9
          (some (.replace "a")) "b" false = .ok st2 ∧
        ∃ es2, st2.customs = .table es2 ∧
          tableFind es2 "a" = some (9, .append) ∧
          ∀ k, k ≠ "a" → tableFind es2 k =
            tableFind [("a", 1, .append), ("b", 2, .add_after "a")] k)) :=
  ⟨rfl, by decide, by decide,
    C9_ledger_bookkeeping
      ⟨.composer ⟨["old", "a", "b"], [0, 1, 2]⟩,
        .table [("a", 1, .append), ("b", 2, .add_after "a")], Option.none⟩
      ⟨["old", "a", "b"], [0, 1, 2]⟩
      [("a", 1, .append), ("b", 2, .add_after "a")] 9 1 "b" "a" .append
      rfl rfl (by decide) (by decide)⟩

end I3py
